import Mathlib

/-!
# Password-based encryption of `src/script.js`

A shallow embedding of `encryptWithPassword`, `deriveKey` and
`decryptWithPassword`.  The platform functions the script calls are embedded
from their standards: `TextEncoder` and `TextDecoder` (WHATWG Encoding),
`btoa` and `atob` (HTML, forgiving-base64), `String.prototype.split`,
`Array.prototype.join` and the string form of a `Uint8Array` (ECMAScript).
PBKDF2 and AES-GCM are the fields of an interface `SubtleCrypto`; whatever a
result assumes of them is one of its hypotheses.
-/

namespace Stlink

/-! ## Values -/

/-- An element of a `Uint8Array`. -/
abbrev Byte := Fin 256

/-- A UTF-16 code unit, the element of a JavaScript string. -/
abbrev CodeUnit := Fin 65536

/-- The contents of a `Uint8Array` or `ArrayBuffer`. -/
abbrev Bytes := List Byte

/-- A JavaScript string: its sequence of UTF-16 code units. -/
abbrev JSString := List CodeUnit

/-- The conversion `ToUint8`: a number modulo 256. -/
def toByte (n : Nat) : Byte := ⟨n % 256, Nat.mod_lt _ (by decide)⟩

/-- The conversion `ToUint16`: a number modulo 65536. -/
def toCodeUnit (n : Nat) : CodeUnit := ⟨n % 65536, Nat.mod_lt _ (by decide)⟩

/-- The exceptions the script can meet. -/
inductive JSError where
  | typeError
  | invalidCharacterError
  | operationError
  deriving DecidableEq, Repr

/-- Runs `f` over a list, left to right, stopping at the first exception:
`Array.prototype.map` with a callback that may throw. -/
def mapExcept {α β : Type} (f : α → Except JSError β) : List α → Except JSError (List β)
  | [] => .ok []
  | x :: xs =>
    match f x with
    | .error e => .error e
    | .ok y =>
      match mapExcept f xs with
      | .error e => .error e
      | .ok ys => .ok (y :: ys)

/-! ## `TextEncoder.prototype.encode` -/

/-- A leading (high) surrogate code unit. -/
def isHighSurrogate (u : Nat) : Prop := 0xD800 ≤ u ∧ u ≤ 0xDBFF

/-- A trailing (low) surrogate code unit. -/
def isLowSurrogate (u : Nat) : Prop := 0xDC00 ≤ u ∧ u ≤ 0xDFFF

instance (u : Nat) : Decidable (isHighSurrogate u) := by
  unfold isHighSurrogate; exact inferInstance

instance (u : Nat) : Decidable (isLowSurrogate u) := by
  unfold isLowSurrogate; exact inferInstance

/-- The conversion of a JavaScript string to a `USVString` (a list of scalar
values): a surrogate pair is one scalar value, an unpaired surrogate is
replaced by U+FFFD. -/
def toUSVString : JSString → List Nat
  | [] => []
  | [u] => if isHighSurrogate u.val ∨ isLowSurrogate u.val then [0xFFFD] else [u.val]
  | u :: v :: rest =>
    if isHighSurrogate u.val then
      if isLowSurrogate v.val then
        (0x10000 + (u.val - 0xD800) * 1024 + (v.val - 0xDC00)) :: toUSVString rest
      else 0xFFFD :: toUSVString (v :: rest)
    else if isLowSurrogate u.val then 0xFFFD :: toUSVString (v :: rest)
    else u.val :: toUSVString (v :: rest)

/-- The UTF-8 encoder of the Encoding Standard, for one scalar value. -/
def utf8EncodeScalar (c : Nat) : Bytes :=
  if c ≤ 0x7F then [toByte c]
  else if c ≤ 0x7FF then [toByte (0xC0 + c / 64), toByte (0x80 + c % 64)]
  else if c ≤ 0xFFFF then
    [toByte (0xE0 + c / 4096), toByte (0x80 + c / 64 % 64), toByte (0x80 + c % 64)]
  else
    [toByte (0xF0 + c / 262144), toByte (0x80 + c / 4096 % 64),
      toByte (0x80 + c / 64 % 64), toByte (0x80 + c % 64)]

/-- The UTF-8 encoding of a list of scalar values. -/
def utf8Encode : List Nat → Bytes
  | [] => []
  | c :: cs => utf8EncodeScalar c ++ utf8Encode cs

/-- The method `encoder.encode(string)` of `const encoder = new TextEncoder()`. -/
def encoder.encode (string : JSString) : Bytes := utf8Encode (toUSVString string)

/-! ## `TextDecoder.prototype.decode` -/

/-- The state of the UTF-8 decoder of the Encoding Standard. -/
structure Utf8State where
  codePoint : Nat
  bytesSeen : Nat
  bytesNeeded : Nat
  lower : Nat
  upper : Nat
  deriving DecidableEq, Repr

/-- The decoder's state between two code points. -/
def Utf8State.init : Utf8State := ⟨0, 0, 0, 0x80, 0xBF⟩

/-- The decoder's handler for a byte read when no bytes are needed (step 3):
the next state and the code points emitted, U+FFFD standing for `error`. -/
def utf8Lead (b : Nat) : Utf8State × List Nat :=
  if b ≤ 0x7F then (Utf8State.init, [b])
  else if 0xC2 ≤ b ∧ b ≤ 0xDF then (⟨b % 32, 0, 1, 0x80, 0xBF⟩, [])
  else if 0xE0 ≤ b ∧ b ≤ 0xEF then
    (⟨b % 16, 0, 2, if b = 0xE0 then 0xA0 else 0x80, if b = 0xED then 0x9F else 0xBF⟩, [])
  else if 0xF0 ≤ b ∧ b ≤ 0xF4 then
    (⟨b % 8, 0, 3, if b = 0xF0 then 0x90 else 0x80, if b = 0xF4 then 0x8F else 0xBF⟩, [])
  else (Utf8State.init, [0xFFFD])

/-- The UTF-8 decoder of the Encoding Standard run over a byte sequence with
error mode `replacement` (the decoder of `new TextDecoder()` is not fatal):
every `error` emits U+FFFD. A byte outside the expected range is handled
again in the initial state after the error (it is restored to the queue). -/
def utf8Decode : Utf8State → Bytes → List Nat
  | st, [] => if st.bytesNeeded ≠ 0 then [0xFFFD] else []
  | st, b :: bs =>
    if st.bytesNeeded = 0 then
      (utf8Lead b.val).2 ++ utf8Decode (utf8Lead b.val).1 bs
    else if b.val < st.lower ∨ st.upper < b.val then
      0xFFFD :: ((utf8Lead b.val).2 ++ utf8Decode (utf8Lead b.val).1 bs)
    else if st.bytesSeen + 1 ≠ st.bytesNeeded then
      utf8Decode ⟨st.codePoint * 64 + b.val % 64, st.bytesSeen + 1, st.bytesNeeded, 0x80, 0xBF⟩ bs
    else (st.codePoint * 64 + b.val % 64) :: utf8Decode Utf8State.init bs

/-- The decoder's output without a leading byte order mark: `ignoreBOM` is
false for `new TextDecoder()`, so a first code point U+FEFF is dropped. -/
def dropBOM : List Nat → List Nat
  | [] => []
  | c :: cs => if c = 0xFEFF then cs else c :: cs

/-- The code units of one scalar value. -/
def utf16EncodeScalar (c : Nat) : JSString :=
  if c ≤ 0xFFFF then [toCodeUnit c]
  else [toCodeUnit (0xD800 + (c - 0x10000) / 1024), toCodeUnit (0xDC00 + (c - 0x10000) % 1024)]

/-- The JavaScript string of a list of scalar values. -/
def utf16Encode : List Nat → JSString
  | [] => []
  | c :: cs => utf16EncodeScalar c ++ utf16Encode cs

/-- The method `decoder.decode(bytes)` of `const decoder = new TextDecoder()`:
it never throws. -/
def decoder.decode (bytes : Bytes) : JSString :=
  utf16Encode (dropBOM (utf8Decode Utf8State.init bytes))

/-! ## `btoa` and `atob` -/

/-- The character of the base64 alphabet with a given 6-bit value. -/
def base64Char (i : Nat) : CodeUnit :=
  if i < 26 then toCodeUnit (65 + i)
  else if i < 52 then toCodeUnit (97 + (i - 26))
  else if i < 62 then toCodeUnit (48 + (i - 52))
  else if i = 62 then 43
  else 47

/-- The 6-bit value of a character of the base64 alphabet. -/
def base64Index (c : CodeUnit) : Option Nat :=
  if 65 ≤ c.val ∧ c.val ≤ 90 then some (c.val - 65)
  else if 97 ≤ c.val ∧ c.val ≤ 122 then some (c.val - 97 + 26)
  else if 48 ≤ c.val ∧ c.val ≤ 57 then some (c.val - 48 + 52)
  else if c.val = 43 then some 62
  else if c.val = 47 then some 63
  else none

/-- Base64 encoding with padding (RFC 4648) of a sequence of byte values. -/
def base64Encode : List Nat → JSString
  | [] => []
  | [a] => [base64Char (a / 4), base64Char (a % 4 * 16), 61, 61]
  | [a, b] => [base64Char (a / 4), base64Char (a % 4 * 16 + b / 16), base64Char (b % 16 * 4), 61]
  | a :: b :: c :: rest =>
    base64Char (a / 4) :: base64Char (a % 4 * 16 + b / 16) ::
      base64Char (b % 16 * 4 + c / 64) :: base64Char (c % 64) :: base64Encode rest

/-- The global `btoa(data)`: throws when a code unit is above U+00FF. -/
def btoa (data : JSString) : Except JSError JSString :=
  if data.all (fun u => decide (u.val ≤ 255)) then .ok (base64Encode (data.map Fin.val))
  else .error .invalidCharacterError

/-- ASCII whitespace: TAB, LF, FF, CR and SPACE. -/
def isAsciiWhitespace (c : CodeUnit) : Bool :=
  c.val = 9 || c.val = 10 || c.val = 12 || c.val = 13 || c.val = 32

/-- Step 2 of forgiving-base64 decode: when the length is a multiple of 4,
one or two trailing `=` are removed. -/
def stripPadding (data : JSString) : JSString :=
  if data.length % 4 = 0 then
    if data.getLast? = some 61 then
      if data.dropLast.getLast? = some 61 then data.dropLast.dropLast else data.dropLast
    else data
  else data

/-- The 6-bit values of a string, when every character is in the alphabet. -/
def base64Sextets : JSString → Option (List Nat)
  | [] => some []
  | c :: cs =>
    match base64Index c with
    | none => none
    | some i =>
      match base64Sextets cs with
      | none => none
      | some is => some (i :: is)

/-- The bytes of a sequence of 6-bit values: 24 bits give three bytes; of 12
left-over bits the last four are discarded, of 18 the last two. -/
def base64DecodeSextets : List Nat → JSString
  | s0 :: s1 :: s2 :: s3 :: rest =>
    toCodeUnit ((s0 * 4 + s1 / 16) % 256) :: toCodeUnit ((s1 % 16 * 16 + s2 / 4) % 256) ::
      toCodeUnit ((s2 % 4 * 64 + s3) % 256) :: base64DecodeSextets rest
  | [s0, s1, s2] =>
    [toCodeUnit ((s0 * 4 + s1 / 16) % 256), toCodeUnit ((s1 % 16 * 16 + s2 / 4) % 256)]
  | [s0, s1] => [toCodeUnit ((s0 * 4 + s1 / 16) % 256)]
  | _ => []

/-- The global `atob(data)`, forgiving-base64 decode: the result is a binary
string, or `InvalidCharacterError`. A string outside ASCII fails whether its
length is counted in code points or in code units, so code units are used. -/
def atob (data : JSString) : Except JSError JSString :=
  let data1 := data.filter (fun c => !isAsciiWhitespace c)
  let data2 := stripPadding data1
  if data2.length % 4 = 1 then .error .invalidCharacterError
  else
    match base64Sextets data2 with
    | none => .error .invalidCharacterError
    | some sextets => .ok (base64DecodeSextets sextets)

/-! ## Strings and arrays -/

/-- The method `string.split(sep)` for a one-unit separator: never empty. -/
def split (sep : CodeUnit) : JSString → List JSString
  | [] => [[]]
  | c :: cs =>
    if c = sep then [] :: split sep cs
    else
      match split sep cs with
      | [] => [[c]]
      | f :: fs => (c :: f) :: fs

/-- The method `array.join(sep)` on an array of strings. -/
def join (sep : CodeUnit) : List JSString → JSString
  | [] => []
  | [f] => f
  | f :: g :: fs => f ++ sep :: join sep (g :: fs)

/-- Decimal digits of a number, most significant first (`fuel` bounds the
number of digits). -/
def decimalDigits : Nat → Nat → JSString
  | 0, _ => []
  | fuel + 1, n =>
    if n < 10 then [toCodeUnit (48 + n)]
    else decimalDigits fuel (n / 10) ++ [toCodeUnit (48 + n % 10)]

/-- The string of a non-negative integer, `Number.prototype.toString`. -/
def numberToString (n : Nat) : JSString := decimalDigits (n + 1) n

/-- The string of a `Uint8Array`: `%TypedArray%.prototype.toString` is
`Array.prototype.toString`, the elements joined by a comma. -/
def uint8ArrayToString (a : Bytes) : JSString :=
  join 44 (a.map (fun b => numberToString b.val))

/-- The expression `String.fromCharCode(...data)` for a `Uint8Array`. The
engine's limit on the number of arguments of a call is not part of the
language and is not modelled. -/
def fromCharCode (data : Bytes) : JSString := data.map (fun b => toCodeUnit b.val)

/-- The expression `new Uint8Array(s.split("").map((byte) => byte.charCodeAt(0)))`:
each code unit of `s` converted with `ToUint8`. -/
def uint8ArrayOfString (s : JSString) : Bytes := s.map (fun u => toByte u.val)

/-! ## Web Crypto -/

/-- The dictionary `Pbkdf2Params` passed to `crypto.subtle.deriveKey`. -/
structure Pbkdf2Params where
  name : String
  salt : Bytes
  iterations : Nat
  hash : String
  deriving DecidableEq

/-- The dictionary `AesDerivedKeyParams`: the kind of key to derive. -/
structure AesDerivedKeyParams where
  name : String
  length : Nat
  deriving DecidableEq

/-- The key object that `crypto.subtle.importKey` returns for raw key data. -/
structure ImportedKey where
  format : String
  keyData : Bytes
  algorithm : String
  extractable : Bool
  usages : List String
  deriving DecidableEq

/-- The cryptographic primitives behind `crypto.subtle`, over a type `Key` of
derived keys: PBKDF2 key derivation and AES-GCM with a key, a nonce and data.
AES-GCM decryption returns `none` when it rejects its input. -/
structure SubtleCrypto (Key : Type) where
  deriveKey : Pbkdf2Params → ImportedKey → AesDerivedKeyParams → Bool → List String → Key
  aesGcmEncrypt : Key → Bytes → Bytes → Bytes
  aesGcmDecrypt : Key → Bytes → Bytes → Option Bytes

/-- The call `crypto.subtle.importKey(format, keyData, algorithm, extractable, usages)`. -/
def importKey (format : String) (keyData : Bytes) (algorithm : String) (extractable : Bool)
    (usages : List String) : ImportedKey :=
  ⟨format, keyData, algorithm, extractable, usages⟩

/-- The call `crypto.subtle.encrypt({ name: "AES-GCM", iv }, key, data)`. -/
def subtleEncrypt {Key : Type} (wc : SubtleCrypto Key) (iv : Bytes) (key : Key)
    (data : Bytes) : Bytes :=
  wc.aesGcmEncrypt key iv data

/-- The call `crypto.subtle.decrypt({ name: "AES-GCM", iv }, key, data)`:
`iv` is a required member and `data` a required argument, so a missing one
(`undefined`) is a `TypeError`; a rejected input is an `OperationError`. -/
def subtleDecrypt {Key : Type} (wc : SubtleCrypto Key) (iv : Option Bytes) (key : Key)
    (data : Option Bytes) : Except JSError Bytes :=
  match iv, data with
  | some iv, some data =>
    match wc.aesGcmDecrypt key iv data with
    | some plain => .ok plain
    | none => .error .operationError
  | _, _ => .error .typeError

/-! ## The script -/

/-- The argument of `encoder.encode(salt)` as a string: a `Uint8Array` is
converted with `ToString`, and `undefined` takes the default `""`. -/
def saltText : Option Bytes → JSString
  | none => []
  | some salt => uint8ArrayToString salt

/-- The first argument of `crypto.subtle.deriveKey` in `deriveKey`. -/
def pbkdf2Params (salt : Option Bytes) : Pbkdf2Params :=
  ⟨"PBKDF2", encoder.encode (saltText salt), 100000, "SHA-256"⟩

/-- The function `deriveKey(password, salt)`; `salt` is `none` when the caller
passes `undefined`. -/
def deriveKey {Key : Type} (wc : SubtleCrypto Key) (password : JSString)
    (salt : Option Bytes) : Key :=
  let importedKey := importKey "raw" (encoder.encode password) "PBKDF2" false ["deriveKey"]
  wc.deriveKey (pbkdf2Params salt) importedKey ⟨"AES-GCM", 256⟩ false ["encrypt", "decrypt"]

/-- The function `encryptWithPassword(string, password)`; `salt` and `iv` are
the values of its two calls of `crypto.getRandomValues`, in that order. -/
def encryptWithPassword {Key : Type} (wc : SubtleCrypto Key) (string password : JSString)
    (salt iv : Bytes) : Except JSError JSString :=
  let key := deriveKey wc password (some salt)
  let cipherText := subtleEncrypt wc iv key (encoder.encode string)
  match mapExcept (fun data => btoa (fromCharCode data)) [cipherText, salt, iv] with
  | .error e => .error e
  | .ok parts => .ok (join 44 parts)

/-- The callback of `rawData.split(",").map(...)` in `decryptWithPassword`:
`new Uint8Array(atob(section).split("").map((byte) => byte.charCodeAt(0)))`. -/
def decodeSection (sect : JSString) : Except JSError Bytes :=
  match atob sect with
  | .error e => .error e
  | .ok s => .ok (uint8ArrayOfString s)

/-- The array `rawData.split(",").map(...)` of `decryptWithPassword`: every
field is decoded, whatever their number. -/
def decodeSections (rawData : JSString) : Except JSError (List Bytes) :=
  mapExcept decodeSection (split 44 rawData)

/-- The body of the `try` block of `decryptWithPassword` up to the value of
`decryptedData`. The destructuring `[cipherText, salt, iv]` takes the first
three elements, `undefined` where there is none. -/
def decryptedData {Key : Type} (wc : SubtleCrypto Key) (rawData password : JSString) :
    Except JSError Bytes :=
  match decodeSections rawData with
  | .error e => .error e
  | .ok sections =>
    let cipherText := sections[0]?
    let salt := sections[1]?
    let iv := sections[2]?
    let key := deriveKey wc password salt
    subtleDecrypt wc iv key cipherText

/-- The body of the `try` block of `decryptWithPassword`. -/
def decryptBody {Key : Type} (wc : SubtleCrypto Key) (rawData password : JSString) :
    Except JSError JSString :=
  match decryptedData wc rawData password with
  | .error e => .error e
  | .ok data => .ok (decoder.decode data)

/-- The function `decryptWithPassword(rawData, password)`: the `catch` block
returns `null` (here `none`) for every exception. -/
def decryptWithPassword {Key : Type} (wc : SubtleCrypto Key) (rawData password : JSString) :
    Option JSString :=
  match decryptBody wc rawData password with
  | .error _ => none
  | .ok s => some s

/-! ## Two instances of the interface -/

/-- A self-delimiting code of a byte sequence. -/
def envelopeCode : Bytes → Bytes
  | [] => [0]
  | x :: xs => 1 :: x :: envelopeCode xs

/-- The header of an envelope: the codes of the two parts of its key. -/
def envelopeTag (k : Bytes × Bytes) : Bytes := envelopeCode k.1 ++ envelopeCode k.2

/-- An instance of the interface that keeps nothing secret: the key is the
pair of the password bytes and the salt bytes, and a ciphertext is the key's
header followed by the plaintext twice. It meets the assumptions the theorems
below make of PBKDF2 and AES-GCM, which shows that they can hold together. -/
def envelopeCrypto : SubtleCrypto (Bytes × Bytes) :=
  ⟨fun params importedKey _ _ _ => (importedKey.keyData, params.salt),
   fun k _ data => envelopeTag k ++ (data ++ data),
   fun k _ data =>
     let body := data.drop (envelopeTag k).length
     if data.take (envelopeTag k).length = envelopeTag k ∧ body.length % 2 = 0 ∧
         body.take (body.length / 2) = body.drop (body.length / 2) then
       some (body.take (body.length / 2))
     else none⟩

/-- An instance of the interface whose ciphertext is the plaintext followed by
a tag of 16 zero bytes, as long as an AES-GCM ciphertext. -/
def paddedCrypto : SubtleCrypto Unit :=
  ⟨fun _ _ _ _ _ => (),
   fun _ _ data => data ++ List.replicate 16 0,
   fun _ _ data =>
     if data.drop (data.length - 16) = List.replicate 16 0 ∧ 16 ≤ data.length then
       some (data.take (data.length - 16))
     else none⟩

/-! ## Vocabulary of the statements and of the proofs -/

/-- The base64 encoding without its padding. -/
def base64Body : List Nat → JSString
  | [] => []
  | [a] => [base64Char (a / 4), base64Char (a % 4 * 16)]
  | [a, b] => [base64Char (a / 4), base64Char (a % 4 * 16 + b / 16), base64Char (b % 16 * 4)]
  | a :: b :: c :: rest =>
    base64Char (a / 4) :: base64Char (a % 4 * 16 + b / 16) ::
      base64Char (b % 16 * 4 + c / 64) :: base64Char (c % 64) :: base64Body rest

/-- The padding of the base64 encoding. -/
def base64Pad : List Nat → JSString
  | [] => []
  | [_] => [61, 61]
  | [_, _] => [61]
  | _ :: _ :: _ :: rest => base64Pad rest

/-- The token field of a byte sequence: its base64 encoding. -/
def base64 (data : Bytes) : JSString := base64Encode (data.map Fin.val)

/-- A Unicode scalar value: a code point that is not a surrogate. -/
def IsScalar (c : Nat) : Prop := c < 0x110000 ∧ ¬ (0xD800 ≤ c ∧ c ≤ 0xDFFF)

instance (c : Nat) : Decidable (IsScalar c) := by
  unfold IsScalar; exact inferInstance

/-- A string without unpaired surrogates, `String.prototype.isWellFormed`. -/
def isWellFormed : JSString → Bool
  | [] => true
  | [u] => !(decide (isHighSurrogate u.val) || decide (isLowSurrogate u.val))
  | u :: v :: rest =>
    if isHighSurrogate u.val then decide (isLowSurrogate v.val) && isWellFormed rest
    else !decide (isLowSurrogate u.val) && isWellFormed (v :: rest)

/-- A byte sequence that is the UTF-8 encoding of scalar values. -/
def IsUtf8 (bytes : Bytes) : Prop := ∃ cs, (∀ c ∈ cs, IsScalar c) ∧ utf8Encode cs = bytes

/-- A character that a base64 field may hold: `A-Z`, `a-z`, `0-9`, `+`, `/`
or `=`. -/
def isTokenChar (c : CodeUnit) : Prop :=
  (65 ≤ c.val ∧ c.val ≤ 90) ∨ (97 ≤ c.val ∧ c.val ≤ 122) ∨ (48 ≤ c.val ∧ c.val ≤ 57) ∨
    c.val = 43 ∨ c.val = 47 ∨ c.val = 61

instance (c : CodeUnit) : Decidable (isTokenChar c) := by
  unfold isTokenChar; exact inferInstance

/-- The JavaScript string of a string literal of ASCII characters. -/
def ofAscii (s : String) : JSString := s.toList.map (fun c => toCodeUnit c.toNat)

/-- A salt of 16 bytes. -/
def sampleSalt : Bytes := [23, 201, 7, 88, 150, 3, 64, 255, 0, 19, 172, 45, 90, 111, 236, 5]

/-- A nonce of 12 bytes. -/
def sampleIv : Bytes := [9, 77, 140, 2, 251, 36, 18, 99, 200, 61, 5, 120]

/-- The number that a string of decimal digits denotes. -/
def decimalValue (digits : JSString) : Nat :=
  digits.foldl (fun acc u => acc * 10 + (u.val - 48)) 0

/-- A list with `f` applied to its element at index `i`. -/
def modifyAt {α : Type} (f : α → α) : List α → Nat → List α
  | [], _ => []
  | x :: xs, 0 => f x :: xs
  | x :: xs, i + 1 => x :: modifyAt f xs i

/-- A byte sequence with bit `j` of its byte at index `i` flipped. -/
def flipBitAt (data : Bytes) (i j : Nat) : Bytes :=
  modifyAt (fun b => toByte (b.val ^^^ 2 ^ j)) data i

/-- A string with bit `j` of its code unit at index `i` flipped. -/
def flipTextBitAt (text : JSString) (i j : Nat) : JSString :=
  modifyAt (fun u => toCodeUnit (u.val ^^^ 2 ^ j)) text i

/-- The token of a ciphertext, a salt and a nonce: their base64 encodings
joined by commas. -/
def tokenOf (cipherText salt iv : Bytes) : JSString :=
  join 44 [base64 cipherText, base64 salt, base64 iv]

/-! ## The platform functions on known values -/

theorem btoa_hello : btoa (ofAscii "hello") = .ok (ofAscii "aGVsbG8=") := by
  rfl

theorem atob_hello : atob (ofAscii " aGVs\nbG8= ") = .ok (ofAscii "hello") := by
  rfl

theorem atob_without_padding : atob (ofAscii "aGVsbG8") = .ok (ofAscii "hello") := by
  rfl

theorem atob_rejects_length : atob (ofAscii "aGVsb") = .error .invalidCharacterError := by
  rfl

theorem atob_rejects_char : atob (ofAscii "aGV-bG8=") = .error .invalidCharacterError := by
  rfl

theorem btoa_rejects_above_255 : btoa [0x20AC] = .error .invalidCharacterError := by
  rfl

theorem encode_euro_and_emoji :
    encoder.encode [0x20AC, 0xD83D, 0xDE00] = [0xE2, 0x82, 0xAC, 0xF0, 0x9F, 0x98, 0x80] := by
  decide

theorem decode_euro_and_emoji :
    decoder.decode [0xE2, 0x82, 0xAC, 0xF0, 0x9F, 0x98, 0x80] = [0x20AC, 0xD83D, 0xDE00] := by
  decide

theorem decode_overlong_and_truncated :
    decoder.decode [0xC0, 0xAF, 0xE0, 0x80, 0x41, 0xF0, 0x90] =
      [0xFFFD, 0xFFFD, 0xFFFD, 0xFFFD, 0x41, 0xFFFD] := by
  decide

theorem decode_drops_first_bom :
    decoder.decode [0xEF, 0xBB, 0xBF, 0xEF, 0xBB, 0xBF, 0x41] = [0xFEFF, 0x41] := by
  decide

theorem split_trailing_comma :
    split 44 (ofAscii "a,b,c,") = [ofAscii "a", ofAscii "b", ofAscii "c", []] := by
  decide

theorem uint8ArrayToString_sample :
    uint8ArrayToString [0, 7, 10, 255] = ofAscii "0,7,10,255" := by
  decide

theorem numberToString_value (fuel n : Nat) (h : n < fuel) :
    decimalValue (decimalDigits fuel n) = n := by
  induction fuel generalizing n with
  | zero => omega
  | succ fuel ih =>
    unfold decimalDigits
    split_ifs with h10
    · show 0 * 10 + ((48 + n) % 65536 - 48) = n
      omega
    · unfold decimalValue
      rw [List.foldl_append]
      have := ih (n / 10) (by omega)
      unfold decimalValue at this
      rw [this]
      show n / 10 * 10 + ((48 + n % 10) % 65536 - 48) = n
      omega

/-! ## Base64 -/

theorem list_induction3 {α : Type} {P : List α → Prop} (h0 : P []) (h1 : ∀ a, P [a])
    (h2 : ∀ a b, P [a, b]) (h3 : ∀ a b c rest, P rest → P (a :: b :: c :: rest)) :
    ∀ l, P l
  | [] => h0
  | [a] => h1 a
  | [a, b] => h2 a b
  | a :: b :: c :: rest => h3 a b c rest (list_induction3 h0 h1 h2 h3 rest)

theorem base64Index_base64Char : ∀ i, i < 64 → base64Index (base64Char i) = some i := by
  decide

theorem base64Index_base64Char_isSome (i : Nat) : (base64Index (base64Char i)).isSome = true := by
  by_cases h : i < 64
  · rw [base64Index_base64Char i h]; rfl
  · have h1 : base64Char i = 47 := by
      unfold base64Char
      rw [if_neg (by omega), if_neg (by omega), if_neg (by omega), if_neg (by omega)]
    rw [h1]; decide

theorem base64Encode_eq (l : List Nat) : base64Encode l = base64Body l ++ base64Pad l := by
  induction l using list_induction3 with
  | h0 => rfl
  | h1 a => rfl
  | h2 a b => rfl
  | h3 a b c rest ih => simp [base64Encode, base64Body, base64Pad, ih]

theorem base64Pad_cases (l : List Nat) :
    base64Pad l = [] ∨ base64Pad l = [61] ∨ base64Pad l = [61, 61] := by
  induction l using list_induction3 with
  | h0 => simp [base64Pad]
  | h1 a => simp [base64Pad]
  | h2 a b => simp [base64Pad]
  | h3 a b c rest ih => simpa [base64Pad] using ih

theorem base64Body_isSome (l : List Nat) :
    ∀ c ∈ base64Body l, (base64Index c).isSome = true := by
  induction l using list_induction3 with
  | h0 => simp [base64Body]
  | h1 a => simp [base64Body, base64Index_base64Char_isSome]
  | h2 a b => simp [base64Body, base64Index_base64Char_isSome]
  | h3 a b c rest ih =>
    intro x hx
    simp only [base64Body, List.mem_cons] at hx
    rcases hx with h | h | h | h | h
    · rw [h]; exact base64Index_base64Char_isSome _
    · rw [h]; exact base64Index_base64Char_isSome _
    · rw [h]; exact base64Index_base64Char_isSome _
    · rw [h]; exact base64Index_base64Char_isSome _
    · exact ih x h

theorem base64Body_length (l : List Nat) : (base64Body l).length % 4 ≠ 1 := by
  induction l using list_induction3 with
  | h0 => simp [base64Body]
  | h1 a => simp [base64Body]
  | h2 a b => simp [base64Body]
  | h3 a b c rest ih => simp only [base64Body, List.length_cons]; omega

theorem base64Encode_length (l : List Nat) : (base64Encode l).length % 4 = 0 := by
  induction l using list_induction3 with
  | h0 => simp [base64Encode]
  | h1 a => simp [base64Encode]
  | h2 a b => simp [base64Encode]
  | h3 a b c rest ih => simp only [base64Encode, List.length_cons]; omega

theorem base64Sextets_cons (c : CodeUnit) (cs : JSString) (i : Nat) (is : List Nat)
    (h1 : base64Index c = some i) (h2 : base64Sextets cs = some is) :
    base64Sextets (c :: cs) = some (i :: is) := by
  simp [base64Sextets, h1, h2]

theorem base64Body_decode (l : List Nat) (hl : ∀ x ∈ l, x < 256) :
    ∃ s, base64Sextets (base64Body l) = some s ∧ base64DecodeSextets s = l.map toCodeUnit := by
  induction l using list_induction3 with
  | h0 => exact ⟨[], rfl, rfl⟩
  | h1 a =>
    have ha : a < 256 := hl a (by simp)
    refine ⟨[a / 4, a % 4 * 16], ?_, ?_⟩
    · exact base64Sextets_cons _ _ _ _ (base64Index_base64Char _ (by omega))
        (base64Sextets_cons _ _ _ _ (base64Index_base64Char _ (by omega)) rfl)
    · simp only [base64DecodeSextets, List.map, toCodeUnit, List.cons.injEq, Fin.mk.injEq, and_true]
      omega
  | h2 a b =>
    have ha : a < 256 := hl a (by simp)
    have hb : b < 256 := hl b (by simp)
    refine ⟨[a / 4, a % 4 * 16 + b / 16, b % 16 * 4], ?_, ?_⟩
    · exact base64Sextets_cons _ _ _ _ (base64Index_base64Char _ (by omega))
        (base64Sextets_cons _ _ _ _ (base64Index_base64Char _ (by omega))
          (base64Sextets_cons _ _ _ _ (base64Index_base64Char _ (by omega)) rfl))
    · simp only [base64DecodeSextets, List.map, toCodeUnit, List.cons.injEq, Fin.mk.injEq, and_true]
      omega
  | h3 a b c rest ih =>
    have ha : a < 256 := hl a (by simp)
    have hb : b < 256 := hl b (by simp)
    have hc : c < 256 := hl c (by simp)
    obtain ⟨s, hs1, hs2⟩ := ih (fun x hx => hl x (by simp [hx]))
    refine ⟨a / 4 :: (a % 4 * 16 + b / 16) :: (b % 16 * 4 + c / 64) :: c % 64 :: s, ?_, ?_⟩
    · exact base64Sextets_cons _ _ _ _ (base64Index_base64Char _ (by omega))
        (base64Sextets_cons _ _ _ _ (base64Index_base64Char _ (by omega))
          (base64Sextets_cons _ _ _ _ (base64Index_base64Char _ (by omega))
            (base64Sextets_cons _ _ _ _ (base64Index_base64Char _ (by omega)) hs1)))
    · simp only [base64DecodeSextets, List.map, toCodeUnit, List.cons.injEq, Fin.mk.injEq, hs2,
        and_true]
      omega

theorem base64Index_pad : base64Index 61 = none := by decide

theorem getLast_ne_pad (body : JSString) (hb : ∀ c ∈ body, (base64Index c).isSome = true) :
    body.getLast? ≠ some 61 := by
  intro h
  have hm : (61 : CodeUnit) ∈ body := List.mem_of_getLast?_eq_some h
  have := hb 61 hm
  rw [base64Index_pad] at this
  exact absurd this (by decide)

theorem stripPadding_body_pad (body pad : JSString)
    (hb : ∀ c ∈ body, (base64Index c).isSome = true)
    (hp : pad = [] ∨ pad = [61] ∨ pad = [61, 61]) (hlen : (body ++ pad).length % 4 = 0) :
    stripPadding (body ++ pad) = body := by
  have hne := getLast_ne_pad body hb
  unfold stripPadding
  rw [if_pos hlen]
  rcases hp with h | h | h
  · subst h
    simp only [List.append_nil]
    rw [if_neg hne]
  · subst h
    rw [if_pos (by simp), List.dropLast_concat, if_neg hne]
  · subst h
    have e : body ++ [61, 61] = (body ++ [61]) ++ [(61 : CodeUnit)] := by simp
    rw [e, if_pos (by simp), List.dropLast_concat, if_pos (by simp), List.dropLast_concat]

theorem filter_whitespace_eq (s : JSString)
    (hs : ∀ c ∈ s, (base64Index c).isSome = true ∨ c = 61) :
    s.filter (fun c => !isAsciiWhitespace c) = s := by
  rw [List.filter_eq_self]
  intro c hc
  have h := hs c hc
  have hv : c.val ≠ 9 ∧ c.val ≠ 10 ∧ c.val ≠ 12 ∧ c.val ≠ 13 ∧ c.val ≠ 32 := by
    rcases h with h | h
    · unfold base64Index at h
      split_ifs at h <;> first | omega | simp at h
    · subst h; decide
  simp [isAsciiWhitespace, hv]

theorem bytes_lt (data : Bytes) : ∀ x ∈ data.map Fin.val, x < 256 := by
  intro x hx
  obtain ⟨b, _, rfl⟩ := List.mem_map.mp hx
  exact b.isLt

theorem fromCharCode_val (data : Bytes) : (fromCharCode data).map Fin.val = data.map Fin.val := by
  unfold fromCharCode
  rw [List.map_map]
  apply List.map_congr_left
  intro b _
  show b.val % 65536 = b.val
  have := b.isLt
  omega

theorem btoa_fromCharCode (data : Bytes) : btoa (fromCharCode data) = .ok (base64 data) := by
  unfold btoa
  have h : (fromCharCode data).all (fun u => decide (u.val ≤ 255)) = true := by
    rw [List.all_eq_true]
    intro u hu
    unfold fromCharCode at hu
    obtain ⟨b, _, rfl⟩ := List.mem_map.mp hu
    have := b.isLt
    simp only [toCodeUnit, decide_eq_true_eq]
    omega
  rw [if_pos h, fromCharCode_val]
  rfl

theorem base64_chars (data : Bytes) :
    ∀ c ∈ base64 data, (base64Index c).isSome = true ∨ c = 61 := by
  intro c hc
  unfold base64 at hc
  rw [base64Encode_eq, List.mem_append] at hc
  rcases hc with h | h
  · exact Or.inl (base64Body_isSome _ c h)
  · right
    rcases base64Pad_cases (data.map Fin.val) with e | e | e <;> rw [e] at h <;> simp at h
    · exact h
    · exact h

theorem atob_base64 (data : Bytes) : atob (base64 data) = .ok (fromCharCode data) := by
  obtain ⟨s, hs1, hs2⟩ := base64Body_decode (data.map Fin.val) (bytes_lt data)
  have hstrip : stripPadding (base64 data) = base64Body (data.map Fin.val) := by
    unfold base64
    rw [base64Encode_eq]
    apply stripPadding_body_pad _ _ (base64Body_isSome _) (base64Pad_cases _)
    rw [← base64Encode_eq]
    exact base64Encode_length _
  unfold atob
  simp only [filter_whitespace_eq _ (base64_chars data), hstrip]
  rw [if_neg (base64Body_length _), hs1]
  simp only [hs2]
  unfold fromCharCode
  rw [List.map_map]
  rfl

theorem uint8ArrayOfString_fromCharCode (data : Bytes) :
    uint8ArrayOfString (fromCharCode data) = data := by
  unfold uint8ArrayOfString fromCharCode
  rw [List.map_map]
  conv_rhs => rw [← List.map_id data]
  apply List.map_congr_left
  intro b _
  apply Fin.ext
  show b.val % 65536 % 256 = b.val
  have := b.isLt
  omega

/-! ## `split` and `join` -/

theorem split_ne_nil (sep : CodeUnit) (s : JSString) : split sep s ≠ [] := by
  induction s with
  | nil => simp [split]
  | cons c cs ih =>
    unfold split
    split_ifs
    · simp
    · split <;> simp

theorem split_cons_ne (sep c : CodeUnit) (cs : JSString) (h : c ≠ sep) :
    split sep (c :: cs) =
      match split sep cs with
      | [] => [[c]]
      | f :: fs => (c :: f) :: fs := by
  simp only [split, if_neg h]

theorem split_of_not_mem (sep : CodeUnit) (f : JSString) (h : sep ∉ f) : split sep f = [f] := by
  induction f with
  | nil => rfl
  | cons c cs ih =>
    have hc : c ≠ sep := fun e => h (by simp [e])
    have hcs : sep ∉ cs := fun e => h (by simp [e])
    rw [split_cons_ne sep c cs hc, ih hcs]

theorem split_append (sep : CodeUnit) (f rest : JSString) (h : sep ∉ f) :
    split sep (f ++ sep :: rest) = f :: split sep rest := by
  induction f with
  | nil => simp [split]
  | cons c cs ih =>
    have hc : c ≠ sep := fun e => h (by simp [e])
    have hcs : sep ∉ cs := fun e => h (by simp [e])
    show split sep (c :: (cs ++ sep :: rest)) = _
    rw [split_cons_ne sep c _ hc, ih hcs]

theorem split_join (sep : CodeUnit) (fields : List JSString) (hne : fields ≠ [])
    (h : ∀ f ∈ fields, sep ∉ f) : split sep (join sep fields) = fields := by
  induction fields with
  | nil => exact absurd rfl hne
  | cons f fs ih =>
    cases fs with
    | nil => exact split_of_not_mem sep f (h f (by simp))
    | cons g gs =>
      show split sep (f ++ sep :: join sep (g :: gs)) = _
      rw [split_append sep f _ (h f (by simp)), ih (by simp) (fun x hx => h x (by simp [hx]))]

theorem not_mem_of_mem_split (sep : CodeUnit) (s : JSString) :
    ∀ f ∈ split sep s, sep ∉ f := by
  induction s with
  | nil => simp [split]
  | cons c cs ih =>
    intro f hf
    unfold split at hf
    split_ifs at hf with hc
    · rcases List.mem_cons.mp hf with e | e
      · rw [e]; simp
      · exact ih f e
    · split at hf
      · simp at hf; rw [hf]; simp [Ne.symm hc]
      · rename_i g gs hg
        rcases List.mem_cons.mp hf with e | e
        · rw [e]
          have := ih g (by rw [hg]; simp)
          simp [Ne.symm hc, this]
        · exact ih f (by rw [hg]; simp [e])

theorem join_split (sep : CodeUnit) (s : JSString) : join sep (split sep s) = s := by
  induction s with
  | nil => rfl
  | cons c cs ih =>
    unfold split
    split_ifs with hc
    · have hne := split_ne_nil sep cs
      cases hsp : split sep cs with
      | nil => exact absurd hsp hne
      | cons g gs =>
        rw [hsp] at ih
        show [] ++ sep :: join sep (g :: gs) = _
        rw [ih, hc]; rfl
    · split
      · rename_i hg; exact absurd hg (split_ne_nil sep cs)
      · rename_i g gs hg
        rw [hg] at ih
        cases gs with
        | nil =>
          show c :: g = c :: cs
          rw [show g = cs from ih]
        | cons g2 gs2 =>
          show (c :: g) ++ sep :: join sep (g2 :: gs2) = c :: cs
          rw [← ih]; rfl

theorem comma_not_mem_base64 (data : Bytes) : (44 : CodeUnit) ∉ base64 data := by
  intro h
  rcases base64_chars data 44 h with e | e
  · exact absurd e (by decide)
  · exact absurd e (by decide)

/-! ## The token -/

theorem encryptWithPassword_eq {Key : Type} (wc : SubtleCrypto Key) (string password : JSString)
    (salt iv : Bytes) :
    encryptWithPassword wc string password salt iv =
      .ok (tokenOf (wc.aesGcmEncrypt (deriveKey wc password (some salt)) iv (encoder.encode string))
        salt iv) := by
  simp [encryptWithPassword, subtleEncrypt, mapExcept, btoa_fromCharCode, tokenOf]

theorem decodeSections_eq (rawData : JSString) :
    decodeSections rawData = mapExcept decodeSection (split 44 rawData) := rfl

theorem decodeSection_base64 (data : Bytes) : decodeSection (base64 data) = .ok data := by
  simp [decodeSection, atob_base64, uint8ArrayOfString_fromCharCode]

theorem split_tokenOf (cipherText salt iv : Bytes) :
    split 44 (tokenOf cipherText salt iv) = [base64 cipherText, base64 salt, base64 iv] := by
  unfold tokenOf
  apply split_join _ _ (by simp)
  intro f hf
  simp only [List.mem_cons, List.mem_singleton, List.not_mem_nil, or_false] at hf
  rcases hf with h | h | h <;> rw [h] <;> exact comma_not_mem_base64 _

theorem decodeSections_tokenOf (cipherText salt iv : Bytes) :
    decodeSections (tokenOf cipherText salt iv) = .ok [cipherText, salt, iv] := by
  rw [decodeSections_eq, split_tokenOf]
  simp [mapExcept, decodeSection_base64]

theorem decryptedData_tokenOf {Key : Type} (wc : SubtleCrypto Key) (cipherText salt iv : Bytes)
    (password : JSString) :
    decryptedData wc (tokenOf cipherText salt iv) password =
      subtleDecrypt wc (some iv) (deriveKey wc password (some salt)) (some cipherText) := by
  simp [decryptedData, decodeSections_tokenOf]

/-! ## UTF-8 and UTF-16 -/

theorem list_induction2 {α : Type} {P : List α → Prop} (h0 : P []) (h1 : ∀ a, P [a])
    (h2 : ∀ a b rest, P rest → P (b :: rest) → P (a :: b :: rest)) : ∀ l, P l
  | [] => h0
  | [a] => h1 a
  | a :: b :: rest =>
    h2 a b rest (list_induction2 h0 h1 h2 rest) (list_induction2 h0 h1 h2 (b :: rest))

theorem toUSVString_isScalar (s : JSString) : ∀ c ∈ toUSVString s, IsScalar c := by
  induction s using list_induction2 with
  | h0 => simp [toUSVString]
  | h1 u =>
    intro c hc
    have := u.isLt
    unfold toUSVString at hc
    unfold isHighSurrogate isLowSurrogate at hc
    unfold IsScalar
    split_ifs at hc <;> simp at hc <;> omega
  | h2 u v rest ih1 ih2 =>
    intro c hc
    have hu := u.isLt
    have hv := v.isLt
    unfold toUSVString at hc
    unfold isHighSurrogate isLowSurrogate at hc
    split_ifs at hc <;> rcases List.mem_cons.mp hc with e | e
    all_goals first
      | exact ih1 c e
      | exact ih2 c e
      | (unfold IsScalar; omega)

theorem utf8Decode_init_cons (b : Byte) (bs : Bytes) :
    utf8Decode Utf8State.init (b :: bs) =
      (utf8Lead b.val).2 ++ utf8Decode (utf8Lead b.val).1 bs := by
  simp [utf8Decode, Utf8State.init]

theorem utf8Decode_more (st : Utf8State) (b : Byte) (bs : Bytes) (h0 : st.bytesNeeded ≠ 0)
    (h1 : st.lower ≤ b.val) (h2 : b.val ≤ st.upper) (h3 : st.bytesSeen + 1 ≠ st.bytesNeeded) :
    utf8Decode st (b :: bs) =
      utf8Decode ⟨st.codePoint * 64 + b.val % 64, st.bytesSeen + 1, st.bytesNeeded, 0x80, 0xBF⟩
        bs := by
  rw [utf8Decode, if_neg h0, if_neg (by omega), if_pos h3]

theorem utf8Decode_last (st : Utf8State) (b : Byte) (bs : Bytes) (h0 : st.bytesNeeded ≠ 0)
    (h1 : st.lower ≤ b.val) (h2 : b.val ≤ st.upper) (h3 : st.bytesSeen + 1 = st.bytesNeeded) :
    utf8Decode st (b :: bs) =
      (st.codePoint * 64 + b.val % 64) :: utf8Decode Utf8State.init bs := by
  rw [utf8Decode, if_neg h0, if_neg (by omega), if_neg (by omega)]

theorem utf8Decode_encodeScalar (c : Nat) (hc : IsScalar c) (rest : Bytes) :
    utf8Decode Utf8State.init (utf8EncodeScalar c ++ rest) =
      c :: utf8Decode Utf8State.init rest := by
  obtain ⟨hmax, hsur⟩ := hc
  unfold utf8EncodeScalar
  by_cases h1 : c ≤ 0x7F
  · rw [if_pos h1]
    show utf8Decode Utf8State.init (toByte c :: rest) = _
    rw [utf8Decode_init_cons]
    have e : (toByte c).val = c := by show c % 256 = c; omega
    rw [e]
    simp [utf8Lead, h1]
  · rw [if_neg h1]
    by_cases h2 : c ≤ 0x7FF
    · rw [if_pos h2]
      show utf8Decode Utf8State.init (toByte (0xC0 + c / 64) :: toByte (0x80 + c % 64) :: rest) = _
      rw [utf8Decode_init_cons]
      have e1 : (toByte (0xC0 + c / 64)).val = 0xC0 + c / 64 := by
        show (0xC0 + c / 64) % 256 = _; omega
      have e2 : (toByte (0x80 + c % 64)).val = 0x80 + c % 64 := by
        show (0x80 + c % 64) % 256 = _; omega
      have l : utf8Lead (0xC0 + c / 64) = (⟨(0xC0 + c / 64) % 32, 0, 1, 0x80, 0xBF⟩, []) := by
        unfold utf8Lead
        rw [if_neg (by omega), if_pos (by omega)]
      rw [e1, l]
      simp only [List.nil_append]
      rw [utf8Decode_last _ _ _ (by simp) (by simp only [e2]; omega) (by simp only [e2]; omega)
        (by simp)]
      simp only [e2]
      congr 1
      omega
    · rw [if_neg h2]
      have e4 : (toByte (0x80 + c % 64)).val = 0x80 + c % 64 := by
        show (0x80 + c % 64) % 256 = _; omega
      have e3 : (toByte (0x80 + c / 64 % 64)).val = 0x80 + c / 64 % 64 := by
        show (0x80 + c / 64 % 64) % 256 = _; omega
      by_cases h3 : c ≤ 0xFFFF
      · rw [if_pos h3]
        show utf8Decode Utf8State.init (toByte (0xE0 + c / 4096) :: toByte (0x80 + c / 64 % 64) ::
          toByte (0x80 + c % 64) :: rest) = _
        rw [utf8Decode_init_cons]
        have e1 : (toByte (0xE0 + c / 4096)).val = 0xE0 + c / 4096 := by
          show (0xE0 + c / 4096) % 256 = _; omega
        have l : utf8Lead (0xE0 + c / 4096) =
            (⟨(0xE0 + c / 4096) % 16, 0, 2, if 0xE0 + c / 4096 = 0xE0 then 0xA0 else 0x80,
              if 0xE0 + c / 4096 = 0xED then 0x9F else 0xBF⟩, []) := by
          unfold utf8Lead
          rw [if_neg (by omega), if_neg (by omega), if_pos (by omega)]
        rw [e1, l]
        simp only [List.nil_append]
        rw [utf8Decode_more _ _ _ (by simp) (by simp only [e3]; split_ifs <;> omega)
          (by simp only [e3]; split_ifs <;> omega) (by simp)]
        rw [utf8Decode_last _ _ _ (by simp) (by simp only [e4]; omega) (by simp only [e4]; omega)
          (by simp)]
        simp only [e3, e4]
        congr 1
        omega
      · rw [if_neg h3]
        show utf8Decode Utf8State.init (toByte (0xF0 + c / 262144) ::
          toByte (0x80 + c / 4096 % 64) :: toByte (0x80 + c / 64 % 64) ::
          toByte (0x80 + c % 64) :: rest) = _
        rw [utf8Decode_init_cons]
        have e1 : (toByte (0xF0 + c / 262144)).val = 0xF0 + c / 262144 := by
          show (0xF0 + c / 262144) % 256 = _; omega
        have e2 : (toByte (0x80 + c / 4096 % 64)).val = 0x80 + c / 4096 % 64 := by
          show (0x80 + c / 4096 % 64) % 256 = _; omega
        have l : utf8Lead (0xF0 + c / 262144) =
            (⟨(0xF0 + c / 262144) % 8, 0, 3, if 0xF0 + c / 262144 = 0xF0 then 0x90 else 0x80,
              if 0xF0 + c / 262144 = 0xF4 then 0x8F else 0xBF⟩, []) := by
          unfold utf8Lead
          rw [if_neg (by omega), if_neg (by omega), if_neg (by omega), if_pos (by omega)]
        rw [e1, l]
        simp only [List.nil_append]
        rw [utf8Decode_more _ _ _ (by simp) (by simp only [e2]; split_ifs <;> omega)
          (by simp only [e2]; split_ifs <;> omega) (by simp)]
        rw [utf8Decode_more _ _ _ (by simp) (by simp only [e3]; omega)
          (by simp only [e3]; omega) (by simp)]
        rw [utf8Decode_last _ _ _ (by simp) (by simp only [e4]; omega) (by simp only [e4]; omega)
          (by simp)]
        simp only [e2, e3, e4]
        congr 1
        omega

theorem utf8Decode_utf8Encode (cs : List Nat) (h : ∀ c ∈ cs, IsScalar c) :
    utf8Decode Utf8State.init (utf8Encode cs) = cs := by
  induction cs with
  | nil => rfl
  | cons c cs ih =>
    show utf8Decode Utf8State.init (utf8EncodeScalar c ++ utf8Encode cs) = _
    rw [utf8Decode_encodeScalar c (h c (by simp)), ih (fun x hx => h x (by simp [hx]))]

theorem utf8Decode_encode (s : JSString) :
    utf8Decode Utf8State.init (encoder.encode s) = toUSVString s :=
  utf8Decode_utf8Encode _ (toUSVString_isScalar s)

theorem utf16Encode_toUSVString (s : JSString) (h : isWellFormed s = true) :
    utf16Encode (toUSVString s) = s := by
  induction s using list_induction2 with
  | h0 => rfl
  | h1 u =>
    have hu := u.isLt
    simp only [isWellFormed, Bool.not_eq_true', Bool.or_eq_false_iff, decide_eq_false_iff_not] at h
    have e : toUSVString [u] = [u.val] := by
      unfold toUSVString
      rw [if_neg (by tauto)]
    rw [e]
    simp only [utf16Encode, utf16EncodeScalar, List.append_nil]
    rw [if_pos (by omega)]
    congr 1
    apply Fin.ext
    show u.val % 65536 = u.val
    omega
  | h2 u v rest ih1 ih2 =>
    have hu := u.isLt
    have hv := v.isLt
    unfold isWellFormed at h
    unfold toUSVString
    by_cases hh : isHighSurrogate u.val
    · rw [if_pos hh] at h
      simp only [Bool.and_eq_true, decide_eq_true_eq] at h
      rw [if_pos hh, if_pos h.1]
      simp only [utf16Encode]
      rw [ih1 h.2]
      unfold isHighSurrogate at hh
      have hl := h.1
      unfold isLowSurrogate at hl
      unfold utf16EncodeScalar
      rw [if_neg (by omega)]
      simp only [List.cons_append, List.nil_append, List.cons.injEq, and_true]
      constructor
      · apply Fin.ext
        show (0xD800 + (0x10000 + (u.val - 0xD800) * 1024 + (v.val - 0xDC00) - 0x10000) / 1024)
          % 65536 = u.val
        omega
      · apply Fin.ext
        show (0xDC00 + (0x10000 + (u.val - 0xD800) * 1024 + (v.val - 0xDC00) - 0x10000) % 1024)
          % 65536 = v.val
        omega
    · rw [if_neg hh] at h
      simp only [Bool.and_eq_true, Bool.not_eq_true', decide_eq_false_iff_not] at h
      rw [if_neg hh, if_neg h.1]
      simp only [utf16Encode]
      rw [ih2 h.2]
      unfold utf16EncodeScalar
      rw [if_pos (by omega)]
      simp only [List.cons_append, List.nil_append, List.cons.injEq, and_true]
      apply Fin.ext
      show u.val % 65536 = u.val
      omega

theorem dropBOM_toUSVString (s : JSString) (h : s.head? ≠ some 0xFEFF) :
    dropBOM (toUSVString s) = toUSVString s := by
  have key : ∀ c cs, toUSVString s = c :: cs → c ≠ 0xFEFF := by
    intro c cs e
    match s, h, e with
    | [u], h, e =>
      have hu : u.val ≠ 0xFEFF := by
        intro hv
        apply h
        simp only [List.head?_cons, Option.some.injEq]
        exact Fin.ext hv
      unfold toUSVString at e
      split_ifs at e <;> simp at e <;> omega
    | u :: v :: rest, h, e =>
      have hu : u.val ≠ 0xFEFF := by
        intro hv
        apply h
        simp only [List.head?_cons, Option.some.injEq]
        exact Fin.ext hv
      unfold toUSVString at e
      unfold isHighSurrogate isLowSurrogate at e
      split_ifs at e <;> simp at e <;> omega
  cases hs : toUSVString s with
  | nil => rfl
  | cons c cs =>
    show (if c = 0xFEFF then cs else c :: cs) = c :: cs
    rw [if_neg (key c cs hs)]

theorem decode_encode_eq (s : JSString) :
    decoder.decode (encoder.encode s) = utf16Encode (dropBOM (toUSVString s)) := by
  unfold decoder.decode
  rw [utf8Decode_encode]

theorem decode_encode (s : JSString) (hwf : isWellFormed s = true)
    (hbom : s.head? ≠ some 0xFEFF) : decoder.decode (encoder.encode s) = s := by
  rw [decode_encode_eq, dropBOM_toUSVString s hbom, utf16Encode_toUSVString s hwf]

theorem encode_injective (s t : JSString) (hs : isWellFormed s = true)
    (ht : isWellFormed t = true) (h : encoder.encode s = encoder.encode t) : s = t := by
  have e : toUSVString s = toUSVString t := by
    rw [← utf8Decode_encode s, ← utf8Decode_encode t, h]
  rw [← utf16Encode_toUSVString s hs, ← utf16Encode_toUSVString t ht, e]

theorem utf8Decode_continue (st : Utf8State) (bs : Bytes) (h0 : st.bytesNeeded ≠ 0)
    (hno : 0xFFFD ∉ utf8Decode st bs) :
    ∃ b rest, bs = b :: rest ∧ st.lower ≤ b.val ∧ b.val ≤ st.upper ∧
      utf8Decode st bs =
        if st.bytesSeen + 1 ≠ st.bytesNeeded then
          utf8Decode
            ⟨st.codePoint * 64 + b.val % 64, st.bytesSeen + 1, st.bytesNeeded, 0x80, 0xBF⟩ rest
        else (st.codePoint * 64 + b.val % 64) :: utf8Decode Utf8State.init rest := by
  cases bs with
  | nil =>
    rw [utf8Decode, if_pos h0] at hno
    exact absurd (List.mem_singleton.mpr rfl) hno
  | cons b rest =>
    by_cases hr : b.val < st.lower ∨ st.upper < b.val
    · rw [utf8Decode, if_neg h0, if_pos hr] at hno
      exact absurd (List.mem_cons_self _ _) hno
    · refine ⟨b, rest, rfl, by omega, by omega, ?_⟩
      rw [utf8Decode, if_neg h0, if_neg hr]

theorem toByte_val (b : Byte) : toByte b.val = b := by
  apply Fin.ext
  show b.val % 256 = b.val
  have := b.isLt
  omega

theorem isUtf8_of_no_replacement (n : Nat) :
    ∀ bytes : Bytes, bytes.length ≤ n → 0xFFFD ∉ utf8Decode Utf8State.init bytes →
      IsUtf8 bytes := by
  induction n with
  | zero =>
    intro bytes hlen _
    have : bytes = [] := List.length_eq_zero.mp (by omega)
    rw [this]
    exact ⟨[], by simp, rfl⟩
  | succ n ih =>
    intro bytes hlen hno
    cases bytes with
    | nil => exact ⟨[], by simp, rfl⟩
    | cons b1 rest =>
      have hb1 := b1.isLt
      rw [utf8Decode_init_cons] at hno
      simp only [List.length_cons] at hlen
      unfold utf8Lead at hno
      by_cases c1 : b1.val ≤ 0x7F
      · rw [if_pos c1] at hno
        simp only [List.singleton_append, List.mem_cons, not_or] at hno
        obtain ⟨cs, hcs, he⟩ := ih rest (by omega) hno.2
        refine ⟨b1.val :: cs, ?_, ?_⟩
        · intro c hc
          rcases List.mem_cons.mp hc with e | e
          · rw [e]; unfold IsScalar; omega
          · exact hcs c e
        · simp only [utf8Encode, utf8EncodeScalar]
          rw [if_pos c1, he, toByte_val]
          rfl
      · rw [if_neg c1] at hno
        by_cases c2 : 0xC2 ≤ b1.val ∧ b1.val ≤ 0xDF
        · rw [if_pos c2] at hno
          simp only [List.nil_append] at hno
          obtain ⟨b2, rest2, hr, hl, hu, hd⟩ := utf8Decode_continue _ rest (by simp) hno
          rw [hd, if_neg (by simp)] at hno
          simp only at hl hu
          subst hr
          simp only [List.mem_cons, not_or] at hno
          simp only [List.length_cons] at hlen
          obtain ⟨cs, hcs, he⟩ := ih rest2 (by omega) hno.2
          have hb2 := b2.isLt
          refine ⟨(b1.val % 32 * 64 + b2.val % 64) :: cs, ?_, ?_⟩
          · intro c hc
            rcases List.mem_cons.mp hc with e | e
            · rw [e]; unfold IsScalar; omega
            · exact hcs c e
          · simp only [utf8Encode, utf8EncodeScalar]
            rw [if_neg (by omega), if_pos (by omega), he]
            simp only [List.cons_append, List.nil_append, List.cons.injEq, and_true]
            constructor <;> apply Fin.ext
            · show (0xC0 + (b1.val % 32 * 64 + b2.val % 64) / 64) % 256 = b1.val
              omega
            · show (0x80 + (b1.val % 32 * 64 + b2.val % 64) % 64) % 256 = b2.val
              omega
        · rw [if_neg c2] at hno
          by_cases c3 : 0xE0 ≤ b1.val ∧ b1.val ≤ 0xEF
          · rw [if_pos c3] at hno
            simp only [List.nil_append] at hno
            obtain ⟨b2, rest2, hr, hl, hu, hd⟩ := utf8Decode_continue _ rest (by simp) hno
            rw [hd, if_pos (by simp)] at hno
            simp only at hl hu
            subst hr
            obtain ⟨b3, rest3, hr3, hl3, hu3, hd3⟩ := utf8Decode_continue _ rest2 (by simp) hno
            rw [hd3, if_neg (by simp)] at hno
            simp only at hl3 hu3
            subst hr3
            simp only [List.mem_cons, not_or] at hno
            simp only [List.length_cons] at hlen
            obtain ⟨cs, hcs, he⟩ := ih rest3 (by omega) hno.2
            have hb2 := b2.isLt
            have hb3 := b3.isLt
            have hlo : (if b1.val = 0xE0 then 0xA0 else 0x80) ≤ b2.val := hl
            have hup : b2.val ≤ (if b1.val = 0xED then 0x9F else 0xBF) := hu
            have hcp : IsScalar ((b1.val % 16 * 64 + b2.val % 64) * 64 + b3.val % 64) ∧
                0x7FF < (b1.val % 16 * 64 + b2.val % 64) * 64 + b3.val % 64 ∧
                (b1.val % 16 * 64 + b2.val % 64) * 64 + b3.val % 64 ≤ 0xFFFF := by
              unfold IsScalar
              split_ifs at hlo hup <;> omega
            refine ⟨((b1.val % 16 * 64 + b2.val % 64) * 64 + b3.val % 64) :: cs, ?_, ?_⟩
            · intro c hc
              rcases List.mem_cons.mp hc with e | e
              · rw [e]; exact hcp.1
              · exact hcs c e
            · simp only [utf8Encode, utf8EncodeScalar]
              rw [if_neg (by omega), if_neg (by omega), if_pos (by omega), he]
              simp only [List.cons_append, List.nil_append, List.cons.injEq, and_true]
              have hb2r : 0x80 ≤ b2.val ∧ b2.val ≤ 0xBF := by
                split_ifs at hlo hup <;> omega
              refine ⟨?_, ?_, ?_⟩ <;> apply Fin.ext
              · show (0xE0 + ((b1.val % 16 * 64 + b2.val % 64) * 64 + b3.val % 64) / 4096) % 256
                  = b1.val
                omega
              · show (0x80 + ((b1.val % 16 * 64 + b2.val % 64) * 64 + b3.val % 64) / 64 % 64)
                  % 256 = b2.val
                omega
              · show (0x80 + ((b1.val % 16 * 64 + b2.val % 64) * 64 + b3.val % 64) % 64) % 256
                  = b3.val
                omega
          · rw [if_neg c3] at hno
            by_cases c4 : 0xF0 ≤ b1.val ∧ b1.val ≤ 0xF4
            · rw [if_pos c4] at hno
              simp only [List.nil_append] at hno
              obtain ⟨b2, rest2, hr, hl, hu, hd⟩ := utf8Decode_continue _ rest (by simp) hno
              rw [hd, if_pos (by simp)] at hno
              simp only at hl hu
              subst hr
              obtain ⟨b3, rest3, hr3, hl3, hu3, hd3⟩ := utf8Decode_continue _ rest2 (by simp) hno
              rw [hd3, if_pos (by simp)] at hno
              simp only at hl3 hu3
              subst hr3
              obtain ⟨b4, rest4, hr4, hl4, hu4, hd4⟩ := utf8Decode_continue _ rest3 (by simp) hno
              rw [hd4, if_neg (by simp)] at hno
              simp only at hl4 hu4
              subst hr4
              simp only [List.mem_cons, not_or] at hno
              simp only [List.length_cons] at hlen
              obtain ⟨cs, hcs, he⟩ := ih rest4 (by omega) hno.2
              have hb2 := b2.isLt
              have hb3 := b3.isLt
              have hb4 := b4.isLt
              have hlo : (if b1.val = 0xF0 then 0x90 else 0x80) ≤ b2.val := hl
              have hup : b2.val ≤ (if b1.val = 0xF4 then 0x8F else 0xBF) := hu
              have hb2r : 0x80 ≤ b2.val ∧ b2.val ≤ 0xBF := by
                split_ifs at hlo hup <;> omega
              have hcp : IsScalar (((b1.val % 8 * 64 + b2.val % 64) * 64 + b3.val % 64) * 64
                    + b4.val % 64) ∧
                  0xFFFF < ((b1.val % 8 * 64 + b2.val % 64) * 64 + b3.val % 64) * 64
                    + b4.val % 64 := by
                unfold IsScalar
                split_ifs at hlo hup <;> omega
              refine ⟨(((b1.val % 8 * 64 + b2.val % 64) * 64 + b3.val % 64) * 64
                + b4.val % 64) :: cs, ?_, ?_⟩
              · intro c hc
                rcases List.mem_cons.mp hc with e | e
                · rw [e]; exact hcp.1
                · exact hcs c e
              · simp only [utf8Encode, utf8EncodeScalar]
                rw [if_neg (by omega), if_neg (by omega), if_neg (by omega), he]
                simp only [List.cons_append, List.nil_append, List.cons.injEq, and_true]
                refine ⟨?_, ?_, ?_, ?_⟩ <;> apply Fin.ext
                · show (0xF0 + (((b1.val % 8 * 64 + b2.val % 64) * 64 + b3.val % 64) * 64
                    + b4.val % 64) / 262144) % 256 = b1.val
                  omega
                · show (0x80 + (((b1.val % 8 * 64 + b2.val % 64) * 64 + b3.val % 64) * 64
                    + b4.val % 64) / 4096 % 64) % 256 = b2.val
                  omega
                · show (0x80 + (((b1.val % 8 * 64 + b2.val % 64) * 64 + b3.val % 64) * 64
                    + b4.val % 64) / 64 % 64) % 256 = b3.val
                  omega
                · show (0x80 + (((b1.val % 8 * 64 + b2.val % 64) * 64 + b3.val % 64) * 64
                    + b4.val % 64) % 64) % 256 = b4.val
                  omega
            · rw [if_neg c4] at hno
              exact absurd (List.mem_cons_self _ _) hno

theorem mem_dropBOM (cs : List Nat) (h : 0xFFFD ∈ cs) : 0xFFFD ∈ dropBOM cs := by
  cases cs with
  | nil => simp at h
  | cons c rest =>
    show 0xFFFD ∈ (if c = 0xFEFF then rest else c :: rest)
    split_ifs with hc
    · rcases List.mem_cons.mp h with e | e
      · omega
      · exact e
    · exact h

theorem mem_utf16Encode (cs : List Nat) (h : 0xFFFD ∈ cs) :
    (0xFFFD : CodeUnit) ∈ utf16Encode cs := by
  induction cs with
  | nil => simp at h
  | cons c rest ih =>
    simp only [utf16Encode, List.mem_append]
    rcases List.mem_cons.mp h with e | e
    · left
      rw [← e]
      decide
    · exact Or.inr (ih e)

theorem replacement_of_not_isUtf8 (bytes : Bytes) (h : ¬ IsUtf8 bytes) :
    (0xFFFD : CodeUnit) ∈ decoder.decode bytes := by
  unfold decoder.decode
  apply mem_utf16Encode
  apply mem_dropBOM
  by_contra hno
  exact h (isUtf8_of_no_replacement bytes.length bytes (Nat.le_refl _) hno)

/-! ## The envelope instance meets the assumptions -/

theorem modifyAt_length {α : Type} (f : α → α) (xs : List α) (i : Nat) :
    (modifyAt f xs i).length = xs.length := by
  induction xs generalizing i with
  | nil => rfl
  | cons x xs ih =>
    cases i with
    | zero => rfl
    | succ i => simp [modifyAt, ih]

theorem modifyAt_ne {α : Type} (f : α → α) (hf : ∀ x, f x ≠ x) (xs : List α) (i : Nat)
    (hi : i < xs.length) : modifyAt f xs i ≠ xs := by
  induction xs generalizing i with
  | nil => simp at hi
  | cons x xs ih =>
    cases i with
    | zero =>
      intro h
      simp only [modifyAt, List.cons.injEq, and_true] at h
      exact hf x h
    | succ i =>
      intro h
      simp only [modifyAt, List.cons.injEq, true_and] at h
      exact ih i (by simpa using hi) h

theorem modifyAt_append {α : Type} (f : α → α) (xs ys : List α) (i : Nat) :
    modifyAt f (xs ++ ys) i =
      if i < xs.length then modifyAt f xs i ++ ys else xs ++ modifyAt f ys (i - xs.length) := by
  induction xs generalizing i with
  | nil => simp
  | cons x xs ih =>
    cases i with
    | zero => simp [modifyAt]
    | succ i =>
      show x :: modifyAt f (xs ++ ys) i = _
      rw [ih]
      simp only [List.length_cons, Nat.add_lt_add_iff_right, Nat.add_sub_add_right]
      split_ifs <;> rfl

theorem flipBit_ne (j : Nat) (hj : j < 8) (b : Byte) : toByte (b.val ^^^ 2 ^ j) ≠ b := by
  intro h
  have hb : b.val < 2 ^ 8 := b.isLt
  have hp : 2 ^ j < 2 ^ 8 := Nat.pow_lt_pow_right (by decide) hj
  have hx : b.val ^^^ 2 ^ j < 256 := Nat.xor_lt_two_pow hb hp
  have hv : (b.val ^^^ 2 ^ j) % 256 = b.val := congrArg Fin.val h
  rw [Nat.mod_eq_of_lt hx] at hv
  have h0 : b.val ^^^ 2 ^ j = b.val ^^^ 0 := by rw [hv, Nat.xor_zero]
  have h1 : 2 ^ j = 0 := Nat.xor_right_inj.mp h0
  exact absurd h1 (by positivity)

theorem envelopeCode_append_inj (xs ys r r2 : Bytes)
    (h : envelopeCode xs ++ r = envelopeCode ys ++ r2) : xs = ys ∧ r = r2 := by
  induction xs generalizing ys with
  | nil =>
    cases ys with
    | nil => simpa [envelopeCode] using h
    | cons y ys => simp [envelopeCode] at h
  | cons x xs ih =>
    cases ys with
    | nil => simp [envelopeCode] at h
    | cons y ys =>
      simp only [envelopeCode, List.cons_append, List.cons.injEq, true_and] at h
      obtain ⟨e, ht⟩ := ih ys h.2
      exact ⟨by rw [h.1, e], ht⟩

theorem envelopeTag_append_inj (k k2 : Bytes × Bytes) (r r2 : Bytes)
    (h : envelopeTag k ++ r = envelopeTag k2 ++ r2) : k = k2 ∧ r = r2 := by
  unfold envelopeTag at h
  rw [List.append_assoc, List.append_assoc] at h
  obtain ⟨e1, h2⟩ := envelopeCode_append_inj _ _ _ _ h
  obtain ⟨e2, h3⟩ := envelopeCode_append_inj _ _ _ _ h2
  exact ⟨Prod.ext e1 e2, h3⟩

theorem envelope_decrypt_eq (k : Bytes × Bytes) (iv body : Bytes) :
    envelopeCrypto.aesGcmDecrypt k iv (envelopeTag k ++ body) =
      if body.length % 2 = 0 ∧ body.take (body.length / 2) = body.drop (body.length / 2) then
        some (body.take (body.length / 2))
      else none := by
  simp [envelopeCrypto]

theorem envelope_decrypt_encrypt (k : Bytes × Bytes) (iv data : Bytes) :
    envelopeCrypto.aesGcmDecrypt k iv (envelopeCrypto.aesGcmEncrypt k iv data) = some data := by
  show envelopeCrypto.aesGcmDecrypt k iv (envelopeTag k ++ (data ++ data)) = some data
  rw [envelope_decrypt_eq]
  have hl : (data ++ data).length / 2 = data.length := by simp; omega
  rw [hl]
  simp
  omega

theorem envelope_wrong_key (k k2 : Bytes × Bytes) (iv data : Bytes) (h : k ≠ k2) :
    envelopeCrypto.aesGcmDecrypt k2 iv (envelopeCrypto.aesGcmEncrypt k iv data) = none := by
  show (if _ then _ else _) = none
  rw [if_neg]
  rintro ⟨ht, -⟩
  have e := List.take_append_drop (envelopeTag k2).length
    (envelopeCrypto.aesGcmEncrypt k iv data)
  rw [ht] at e
  exact h (envelopeTag_append_inj k2 k _ _ e).1.symm

theorem envelope_deriveKey_injective (params : Pbkdf2Params) (a b : ImportedKey)
    (d : AesDerivedKeyParams) (x : Bool) (u : List String) (h : a.keyData ≠ b.keyData) :
    envelopeCrypto.deriveKey params a d x u ≠ envelopeCrypto.deriveKey params b d x u := by
  intro e
  exact h (congrArg Prod.fst e)

theorem envelope_tamper (k : Bytes × Bytes) (iv data : Bytes) (i j : Nat)
    (hi : i < (envelopeCrypto.aesGcmEncrypt k iv data).length) (hj : j < 8) :
    envelopeCrypto.aesGcmDecrypt k iv (flipBitAt (envelopeCrypto.aesGcmEncrypt k iv data) i j) =
      none := by
  have hlen : (envelopeCrypto.aesGcmEncrypt k iv data).length =
      (envelopeTag k).length + (data.length + data.length) := by
    show (envelopeTag k ++ (data ++ data)).length = _
    simp
  rw [hlen] at hi
  show envelopeCrypto.aesGcmDecrypt k iv
    (modifyAt (fun b => toByte (b.val ^^^ 2 ^ j)) (envelopeTag k ++ (data ++ data)) i) = none
  generalize hf : (fun b : Byte => toByte (b.val ^^^ 2 ^ j)) = f
  have hne : ∀ x, f x ≠ x := by
    intro x
    rw [← hf]
    exact flipBit_ne j hj x
  rw [modifyAt_append]
  by_cases h1 : i < (envelopeTag k).length
  · rw [if_pos h1]
    show (if _ then _ else _) = none
    rw [if_neg]
    rintro ⟨ht, -⟩
    have hl := modifyAt_length f (envelopeTag k) i
    rw [← hl, List.take_left] at ht
    exact modifyAt_ne f hne _ i h1 ht
  · rw [if_neg h1, envelope_decrypt_eq, if_neg]
    rintro ⟨-, hh⟩
    rw [modifyAt_length] at hh
    have hl : (data ++ data).length / 2 = data.length := by simp; omega
    rw [hl, modifyAt_append] at hh
    by_cases h2 : i - (envelopeTag k).length < data.length
    · rw [if_pos h2] at hh
      have hl2 := modifyAt_length f data (i - (envelopeTag k).length)
      rw [← hl2, List.take_left, List.drop_left] at hh
      exact modifyAt_ne f hne _ _ h2 hh
    · rw [if_neg h2] at hh
      rw [List.take_left, List.drop_left] at hh
      exact modifyAt_ne f hne _ _ (by omega) hh.symm

/-! ## The claims -/

theorem decryptWithPassword_tokenOf {Key : Type} (wc : SubtleCrypto Key)
    (cipherText salt iv plain : Bytes) (password : JSString)
    (h : wc.aesGcmDecrypt (deriveKey wc password (some salt)) iv cipherText = some plain) :
    decryptWithPassword wc (tokenOf cipherText salt iv) password = some (decoder.decode plain) := by
  simp [decryptWithPassword, decryptBody, decryptedData_tokenOf, subtleDecrypt, h]

theorem decryptWithPassword_tokenOf_none {Key : Type} (wc : SubtleCrypto Key)
    (cipherText salt iv : Bytes) (password : JSString)
    (h : wc.aesGcmDecrypt (deriveKey wc password (some salt)) iv cipherText = none) :
    decryptWithPassword wc (tokenOf cipherText salt iv) password = none := by
  simp [decryptWithPassword, decryptBody, decryptedData_tokenOf, subtleDecrypt, h]

theorem mapExcept_length {α β : Type} (f : α → Except JSError β) (xs : List α) (ys : List β)
    (h : mapExcept f xs = .ok ys) : ys.length = xs.length := by
  induction xs generalizing ys with
  | nil =>
    simp only [mapExcept, Except.ok.injEq] at h
    rw [← h]
    rfl
  | cons x xs ih =>
    unfold mapExcept at h
    split at h
    · exact absurd h (by simp)
    · split at h
      · exact absurd h (by simp)
      · rename_i zs hz
        simp only [Except.ok.injEq] at h
        rw [← h, List.length_cons, List.length_cons, ih zs hz]

theorem mapExcept_ok_of_forall {α β : Type} (f : α → Except JSError β) (xs : List α)
    (h : ∀ x ∈ xs, ∃ y, f x = .ok y) : ∃ ys, mapExcept f xs = .ok ys := by
  induction xs with
  | nil => exact ⟨[], rfl⟩
  | cons x xs ih =>
    obtain ⟨y, hy⟩ := h x (by simp)
    obtain ⟨ys, hys⟩ := ih (fun z hz => h z (by simp [hz]))
    exact ⟨y :: ys, by simp [mapExcept, hy, hys]⟩

theorem mapExcept_error_of_mem {α β : Type} (f : α → Except JSError β) (xs : List α) (x : α)
    (hx : x ∈ xs) (h : ∃ e, f x = .error e) : ∃ e, mapExcept f xs = .error e := by
  induction xs with
  | nil => simp at hx
  | cons z zs ih =>
    unfold mapExcept
    rcases List.mem_cons.mp hx with e | e
    · obtain ⟨err, herr⟩ := h
      rw [← e, herr]
      exact ⟨err, rfl⟩
    · cases hz : f z with
      | error err => exact ⟨err, rfl⟩
      | ok y =>
        obtain ⟨err, herr⟩ := ih e
        rw [herr]
        exact ⟨err, rfl⟩

theorem decryptWithPassword_of_decodeSections_error {Key : Type} (wc : SubtleCrypto Key)
    (rawData password : JSString) (e : JSError) (h : decodeSections rawData = .error e) :
    decryptWithPassword wc rawData password = none := by
  simp [decryptWithPassword, decryptBody, decryptedData, h]

theorem decryptWithPassword_of_atob_error {Key : Type} (wc : SubtleCrypto Key)
    (rawData password f : JSString) (hf : f ∈ split 44 rawData) (e : JSError)
    (he : atob f = .error e) : decryptWithPassword wc rawData password = none := by
  have hd : ∃ e2, decodeSection f = .error e2 := ⟨e, by simp [decodeSection, he]⟩
  obtain ⟨e2, h2⟩ := mapExcept_error_of_mem decodeSection (split 44 rawData) f hf hd
  exact decryptWithPassword_of_decodeSections_error wc rawData password e2 h2

/-- C9: when AES-GCM decryption inverts encryption under the same key and
nonce, encrypting the empty string and decrypting the token with the same
password returns the empty string, for every password, salt and nonce. -/
theorem roundTrip_empty {Key : Type} (wc : SubtleCrypto Key)
    (hdec : ∀ k iv data, wc.aesGcmDecrypt k iv (wc.aesGcmEncrypt k iv data) = some data)
    (password : JSString) (salt iv : Bytes) :
    ∃ token, encryptWithPassword wc [] password salt iv = .ok token ∧
      decryptWithPassword wc token password = some [] := by
  refine ⟨_, encryptWithPassword_eq wc [] password salt iv, ?_⟩
  rw [decryptWithPassword_tokenOf wc _ salt iv _ password (hdec _ _ _)]
  rfl

/-- C9 at the password `correct-horse`, in the envelope instance, which meets
the assumption. -/
theorem roundTrip_empty_witness :
    (∀ k iv data, envelopeCrypto.aesGcmDecrypt k iv (envelopeCrypto.aesGcmEncrypt k iv data)
        = some data) ∧
    ∃ token, encryptWithPassword envelopeCrypto [] (ofAscii "correct-horse") sampleSalt
        sampleIv = .ok token ∧
      decryptWithPassword envelopeCrypto token (ofAscii "correct-horse") = some [] :=
  ⟨envelope_decrypt_encrypt,
    roundTrip_empty envelopeCrypto envelope_decrypt_encrypt (ofAscii "correct-horse") sampleSalt
      sampleIv⟩

/-- C3: `decryptWithPassword` returns a string when the body of its `try`
block returns one and `null` whenever a step of the body throws, whatever
the exception: decoding the fields, the call of `crypto.subtle.decrypt` or
anything before the `return`. A field that `atob` rejects, wherever it
stands in the token, gives `null`. -/
theorem decrypt_uniform_failure {Key : Type} (wc : SubtleCrypto Key)
    (rawData password : JSString) :
    (∀ e, decodeSections rawData = .error e → decryptWithPassword wc rawData password = none) ∧
    (∀ e, decryptedData wc rawData password = .error e →
      decryptWithPassword wc rawData password = none) ∧
    (∀ e, decryptBody wc rawData password = .error e →
      decryptWithPassword wc rawData password = none) ∧
    (∀ s, decryptBody wc rawData password = .ok s →
      decryptWithPassword wc rawData password = some s) ∧
    (∀ f ∈ split 44 rawData, (∃ e, atob f = .error e) →
      decryptWithPassword wc rawData password = none) := by
  refine ⟨?_, ?_, ?_, ?_, ?_⟩
  · intro e h
    exact decryptWithPassword_of_decodeSections_error wc rawData password e h
  · intro e h
    simp [decryptWithPassword, decryptBody, h]
  · intro e h
    simp [decryptWithPassword, h]
  · intro s h
    simp [decryptWithPassword, h]
  · intro f hf ⟨e, he⟩
    exact decryptWithPassword_of_atob_error wc rawData password f hf e he

/-- C4, as amended: a token whose split on comma gives fewer than 3 fields
gives `null` for every password. A token with more than 3 fields is not
rejected for their number: when `atob` accepts every field after the third,
the result is that of the token made of the first three fields, and when
`atob` rejects a field the result is `null`. -/
theorem decrypt_field_count {Key : Type} (wc : SubtleCrypto Key)
    (rawData password : JSString) :
    ((split 44 rawData).length < 3 → decryptWithPassword wc rawData password = none) ∧
    (∀ f1 f2 f3 extra, split 44 rawData = f1 :: f2 :: f3 :: extra →
      (∀ f ∈ extra, ∃ s, atob f = .ok s) →
      decryptWithPassword wc rawData password =
        decryptWithPassword wc (join 44 [f1, f2, f3]) password) ∧
    (∀ f ∈ split 44 rawData, (∃ e, atob f = .error e) →
      decryptWithPassword wc rawData password = none) := by
  refine ⟨?_, ?_, ?_⟩
  · intro hlen
    cases hd : decodeSections rawData with
    | error e => exact decryptWithPassword_of_decodeSections_error wc rawData password e hd
    | ok sections =>
      have hl : sections.length < 3 := by
        rw [mapExcept_length decodeSection (split 44 rawData) sections hd]
        exact hlen
      have h2 : sections[2]? = none := List.getElem?_eq_none (by omega)
      simp [decryptWithPassword, decryptBody, decryptedData, hd, h2, subtleDecrypt]
  · intro f1 f2 f3 extra hsplit hextra
    have hes : ∃ es, mapExcept decodeSection extra = .ok es := by
      apply mapExcept_ok_of_forall
      intro f hf
      obtain ⟨t, ht⟩ := hextra f hf
      exact ⟨uint8ArrayOfString t, by simp [decodeSection, ht]⟩
    obtain ⟨es, hes⟩ := hes
    have hA : decodeSections rawData = mapExcept decodeSection (f1 :: f2 :: f3 :: extra) := by
      unfold decodeSections
      rw [hsplit]
    have hB : decodeSections (join 44 [f1, f2, f3]) = mapExcept decodeSection [f1, f2, f3] := by
      unfold decodeSections
      rw [split_join 44 [f1, f2, f3] (by simp)]
      intro f hf
      apply not_mem_of_mem_split 44 rawData
      rw [hsplit]
      simp only [List.mem_cons, List.mem_singleton, List.not_mem_nil, or_false] at hf
      rcases hf with h | h | h <;> simp [h]
    unfold decryptWithPassword decryptBody decryptedData
    rw [hA, hB]
    cases h1 : decodeSection f1 <;> cases h2 : decodeSection f2 <;>
      cases h3 : decodeSection f3 <;> simp [mapExcept, h1, h2, h3, hes]
  · intro f hf ⟨e, he⟩
    exact decryptWithPassword_of_atob_error wc rawData password f hf e he

set_option maxRecDepth 1000000 in
/-- C4 fails as stated: the token of `hello world` followed by a comma has
four fields and decrypts to `hello world`. -/
theorem decrypt_field_count_counterexample :
    ∃ token, encryptWithPassword envelopeCrypto (ofAscii "hello world")
        (ofAscii "correct-horse") sampleSalt sampleIv = .ok token ∧
      (split 44 (token ++ [44])).length = 4 ∧
      decryptWithPassword envelopeCrypto (token ++ [44]) (ofAscii "correct-horse") =
        some (ofAscii "hello world") :=
  ⟨_, encryptWithPassword_eq _ _ _ _ _, by decide, by decide⟩

/-- C5, as amended: when AES-GCM decryption succeeds, `decryptWithPassword`
returns the string that `TextDecoder` makes of the recovered bytes, whether
or not they are valid UTF-8: the decoder is not fatal and never throws. When
the bytes are not valid UTF-8 that string contains U+FFFD. -/
theorem decrypt_decodes_any_bytes {Key : Type} (wc : SubtleCrypto Key)
    (rawData password : JSString) (bytes : Bytes)
    (h : decryptedData wc rawData password = .ok bytes) :
    decryptWithPassword wc rawData password = some (decoder.decode bytes) ∧
      (¬ IsUtf8 bytes → (0xFFFD : CodeUnit) ∈ decoder.decode bytes) :=
  ⟨by simp [decryptWithPassword, decryptBody, h], replacement_of_not_isUtf8 bytes⟩

theorem not_isUtf8_255 : ¬ IsUtf8 [255] := by
  rintro ⟨cs, hcs, h⟩
  have hd := utf8Decode_utf8Encode cs hcs
  rw [h] at hd
  have e : cs = [0xFFFD] := by
    rw [← hd]
    decide
  rw [e] at h
  exact absurd h (by decide)

/-- The amended C5 at a token whose ciphertext holds the byte `0xFF`, in the
envelope instance. -/
theorem decrypt_decodes_any_bytes_witness :
    decryptedData envelopeCrypto
      (tokenOf
        (envelopeCrypto.aesGcmEncrypt (deriveKey envelopeCrypto (ofAscii "correct-horse")
          (some sampleSalt)) sampleIv [255])
        sampleSalt sampleIv)
      (ofAscii "correct-horse") = .ok [255] ∧
    decryptWithPassword envelopeCrypto
      (tokenOf
        (envelopeCrypto.aesGcmEncrypt (deriveKey envelopeCrypto (ofAscii "correct-horse")
          (some sampleSalt)) sampleIv [255])
        sampleSalt sampleIv)
      (ofAscii "correct-horse") = some (decoder.decode [255]) ∧
    (¬ IsUtf8 [255] → (0xFFFD : CodeUnit) ∈ decoder.decode [255]) :=
  ⟨by rw [decryptedData_tokenOf]; simp [subtleDecrypt, envelope_decrypt_encrypt],
    decrypt_decodes_any_bytes envelopeCrypto _ (ofAscii "correct-horse") [255]
      (by rw [decryptedData_tokenOf]; simp [subtleDecrypt, envelope_decrypt_encrypt])⟩

set_option maxRecDepth 1000000 in
/-- C5 fails as stated: for a token whose ciphertext decrypts to the single
byte `0xFF`, which is not valid UTF-8, the result is the string U+FFFD. -/
theorem decrypt_invalid_utf8_counterexample :
    decryptedData envelopeCrypto
      (tokenOf
        (envelopeCrypto.aesGcmEncrypt (deriveKey envelopeCrypto (ofAscii "correct-horse")
          (some sampleSalt)) sampleIv [255])
        sampleSalt sampleIv)
      (ofAscii "correct-horse") = .ok [255] ∧
    ¬ IsUtf8 [255] ∧
    decryptWithPassword envelopeCrypto
      (tokenOf
        (envelopeCrypto.aesGcmEncrypt (deriveKey envelopeCrypto (ofAscii "correct-horse")
          (some sampleSalt)) sampleIv [255])
        sampleSalt sampleIv)
      (ofAscii "correct-horse") = some [0xFFFD] :=
  ⟨by rw [decryptedData_tokenOf]; simp [subtleDecrypt, envelope_decrypt_encrypt],
    not_isUtf8_255, by decide⟩

theorem base64_ne_nil (data : Bytes) (h : data ≠ []) : base64 data ≠ [] := by
  unfold base64
  match data, h with
  | [a], _ => simp [base64Encode]
  | [a, b], _ => simp [base64Encode]
  | a :: b :: c :: rest, _ => simp [base64Encode]

theorem isTokenChar_base64 (data : Bytes) : ∀ c ∈ base64 data, isTokenChar c := by
  intro c hc
  unfold isTokenChar
  rcases base64_chars data c hc with h | h
  · unfold base64Index at h
    split_ifs at h <;> first | omega | simp at h
  · subst h; decide

theorem length_pos_ne_nil {α : Type} (l : List α) (n : Nat) (h : l.length = n + 1) : l ≠ [] := by
  intro e
  rw [e] at h
  simp at h

theorem padded_length (k : Unit) (iv data : Bytes) :
    (paddedCrypto.aesGcmEncrypt k iv data).length = data.length + 16 := by
  show (data ++ List.replicate 16 0).length = _
  simp

theorem decimalDigits_ne_nil (fuel n : Nat) : decimalDigits (fuel + 1) n ≠ [] := by
  unfold decimalDigits
  split_ifs <;> simp

theorem decimalDigits_ascii (fuel n : Nat) : ∀ u ∈ decimalDigits fuel n, u.val < 128 := by
  induction fuel generalizing n with
  | zero => simp [decimalDigits]
  | succ fuel ih =>
    intro u hu
    unfold decimalDigits at hu
    split_ifs at hu with h
    · simp only [List.mem_singleton] at hu
      rw [hu]
      show (48 + n) % 65536 < 128
      omega
    · rcases List.mem_append.mp hu with e | e
      · exact ih _ u e
      · simp only [List.mem_singleton] at e
        rw [e]
        show (48 + n % 10) % 65536 < 128
        omega

theorem join_length_ge (sep : CodeUnit) (fields : List JSString) (h : ∀ f ∈ fields, f ≠ []) :
    2 * fields.length ≤ (join sep fields).length + 1 := by
  induction fields with
  | nil => simp
  | cons f fs ih =>
    have hf : 0 < f.length := List.length_pos.mpr (h f (by simp))
    cases fs with
    | nil => simp [join]; omega
    | cons g gs =>
      have := ih (fun x hx => h x (by simp [hx]))
      simp only [join, List.length_append, List.length_cons] at this ⊢
      omega

theorem join_ascii (sep : CodeUnit) (hsep : sep.val < 128) (fields : List JSString)
    (h : ∀ f ∈ fields, ∀ u ∈ f, u.val < 128) : ∀ u ∈ join sep fields, u.val < 128 := by
  induction fields with
  | nil => simp [join]
  | cons f fs ih =>
    cases fs with
    | nil => exact h f (by simp)
    | cons g gs =>
      intro u hu
      simp only [join, List.mem_append, List.mem_cons] at hu
      rcases hu with e | e | e
      · exact h f (by simp) u e
      · rw [e]; exact hsep
      · exact ih (fun x hx => h x (by simp [hx])) u e

theorem encode_ascii_length (s : JSString) (h : ∀ u ∈ s, u.val < 128) :
    (encoder.encode s).length = s.length := by
  unfold encoder.encode
  induction s with
  | nil => rfl
  | cons u rest ih =>
    have hu : u.val < 128 := h u (by simp)
    have e : toUSVString (u :: rest) = u.val :: toUSVString rest := by
      cases rest with
      | nil =>
        simp only [toUSVString, isHighSurrogate, isLowSurrogate]
        rw [if_neg (by omega)]
      | cons v rest2 =>
        simp only [toUSVString, isHighSurrogate, isLowSurrogate]
        rw [if_neg (by omega), if_neg (by omega)]
    rw [e]
    simp only [utf8Encode, utf8EncodeScalar, List.length_append, List.length_cons]
    rw [if_pos (by omega), ih (fun x hx => h x (by simp [hx]))]
    simp
    omega

theorem uint8ArrayToString_length (a : Bytes) :
    2 * a.length ≤ (encoder.encode (uint8ArrayToString a)).length + 1 := by
  have hascii : ∀ u ∈ uint8ArrayToString a, u.val < 128 := by
    apply join_ascii 44 (by decide)
    intro f hf
    obtain ⟨b, _, rfl⟩ := List.mem_map.mp hf
    exact decimalDigits_ascii _ _
  rw [encode_ascii_length _ hascii]
  have := join_length_ge 44 (a.map (fun b => numberToString b.val)) (by
    intro f hf
    obtain ⟨b, _, rfl⟩ := List.mem_map.mp hf
    exact decimalDigits_ne_nil _ _)
  rw [List.length_map] at this
  exact this

/-- The general round trip: when AES-GCM decryption inverts encryption under the same key and
nonce, `decryptWithPassword(encryptWithPassword(P, W), W)` is, for every
plaintext `P`, the string `P` with each unpaired surrogate replaced by U+FFFD
and then a leading U+FEFF removed. -/
theorem roundTrip_general {Key : Type} (wc : SubtleCrypto Key)
    (hdec : ∀ k iv data, wc.aesGcmDecrypt k iv (wc.aesGcmEncrypt k iv data) = some data)
    (string password : JSString) (salt iv : Bytes) :
    ∃ token, encryptWithPassword wc string password salt iv = .ok token ∧
      decryptWithPassword wc token password =
        some (utf16Encode (dropBOM (toUSVString string))) := by
  refine ⟨_, encryptWithPassword_eq wc string password salt iv, ?_⟩
  rw [decryptWithPassword_tokenOf wc _ salt iv _ password (hdec _ _ _), decode_encode_eq]

/-- The general round trip at the plaintext U+FEFF U+D800 `h`, in the envelope instance. -/
theorem roundTrip_general_witness :
    ∃ token, encryptWithPassword envelopeCrypto [0xFEFF, 0xD800, 104] (ofAscii "correct-horse")
        sampleSalt sampleIv = .ok token ∧
      decryptWithPassword envelopeCrypto token (ofAscii "correct-horse") =
        some (utf16Encode (dropBOM (toUSVString [0xFEFF, 0xD800, 104]))) :=
  roundTrip_general envelopeCrypto envelope_decrypt_encrypt [0xFEFF, 0xD800, 104]
    (ofAscii "correct-horse") sampleSalt sampleIv

/-- The function `encryptWithPassword` returns a token for every plaintext, password,
salt and nonce: `btoa` never meets a code unit above U+00FF, since its
argument is made of bytes. The fields of the token decode, as
`decryptWithPassword` decodes them, to the ciphertext, the salt and the
nonce. -/
theorem encrypt_returns_token {Key : Type} (wc : SubtleCrypto Key) (string password : JSString)
    (salt iv : Bytes) :
    ∃ token, encryptWithPassword wc string password salt iv = .ok token ∧
      decodeSections token =
        .ok [subtleEncrypt wc iv (deriveKey wc password (some salt)) (encoder.encode string),
          salt, iv] :=
  ⟨_, encryptWithPassword_eq wc string password salt iv, decodeSections_tokenOf _ salt iv⟩

end Stlink
